import Mathlib

/-!
Verification of the autobatch engine of slurminade
(`src/slurminade/autobatch.py`): a shallow embedding of `HashableDict`
hashing and of `AutoBatch.add`, `on_completion`, `run_locally`,
`_add_on_completion_tasks`, `distribute` and `__exit__`, together with
theorems about grouping, chunking, state draining, dependency composition,
the exit paths and termination of the chunking loop.
-/

/-- Python values as they appear in configurations and call arguments.
Lists (represented with int elements) model Python's unhashable values;
`None`, ints and strings are hashable. -/
inductive PyVal where
  | noneV : PyVal
  | int : Int → PyVal
  | str : String → PyVal
  | pylist : List Int → PyVal
deriving DecidableEq

/-- A Python dict, insertion-ordered; dicts built by Python have unique keys
(`nodupKeys` below). -/
abbrev PyDict := List (String × PyVal)

/-- Keys of a dict are pairwise distinct (an invariant of every real Python
dict, carried as a hypothesis because `PyDict` is a raw entry list). -/
def nodupKeys (d : PyDict) : Prop := (d.map Prod.fst).Nodup

instance (d : PyDict) : Decidable (nodupKeys d) :=
  inferInstanceAs (Decidable ((d.map Prod.fst).Nodup))

/-- Lookup of a key in a dict (first matching entry). -/
def dictLookup (d : PyDict) (k : String) : Option PyVal :=
  match d with
  | [] => none
  | p :: rest => if p.1 = k then some p.2 else dictLookup rest k

/-- Python dict equality: same key set with equal values, insertion order
ignored. `HashableDict` inherits exactly this equality from `dict`. -/
def dictBeq (d1 d2 : PyDict) : Bool :=
  d1.all (fun p => decide (dictLookup d2 p.1 = some p.2)) &&
    d2.all (fun p => decide (dictLookup d1 p.1 = some p.2))

/-- Python exceptions raised by the embedded code. The `TypeError` raised by
hashing an unhashable value is the error the spec calls `InvalidConfigError`. -/
inductive PyErr where
  | typeError : String → PyErr
  | valueError : String → PyErr
deriving DecidableEq

/-- Whether `PyErr` is a `TypeError` (Python's `ValueError` is not). -/
def isTypeError : PyErr → Bool
  | PyErr.typeError _ => true
  | PyErr.valueError _ => false

/-- Hashability of a value: lists are unhashable, the rest are hashable. -/
def pyHashable : PyVal → Bool
  | PyVal.pylist _ => false
  | _ => true

/-- One `hash((k, v))` from `HashableDict.__hash__`: raises `TypeError` when
the value is unhashable, otherwise yields the (opaque) hash `f (k, v)`;
theorems quantify over the per-entry hash function `f`. -/
def pairHashE (f : String × PyVal → Nat) (p : String × PyVal) : Except PyErr Nat :=
  if pyHashable p.2 then Except.ok (f p)
  else Except.error (PyErr.typeError "unhashable type")

/-- Evaluation of the generator `(hash((k, v)) for k, v in self.items())`:
the first unhashable entry raises, otherwise the list of entry hashes. -/
def pairHashes (f : String × PyVal → Nat) : PyDict → Except PyErr (List Nat)
  | [] => Except.ok []
  | p :: rest =>
      match pairHashE f p with
      | Except.error e => Except.error e
      | Except.ok h =>
          match pairHashes f rest with
          | Except.error e => Except.error e
          | Except.ok hs => Except.ok (h :: hs)

/-- `HashableDict.__hash__`, namely
`hash(tuple(sorted(hash((k, v)) for k, v in self.items())))`: the sorted
tuple of per-entry hashes is the hash content (the outer tuple hash adds
nothing to equality reasoning and is dropped). -/
def hdHash (f : String × PyVal → Nat) (d : PyDict) : Except PyErr (List Nat) :=
  match pairHashes f d with
  | Except.error e => Except.error e
  | Except.ok hs => Except.ok (List.insertionSort (fun a b => a ≤ b) hs)

/-- `_FunctionCall`: the registered function id with the recorded arguments. -/
structure FCall where
  func_id : Nat
  args : List PyVal
  kwargs : PyDict
deriving DecidableEq

/-- `SlurmFunction`: a registered callable handle with its declared slurm
options. -/
structure SlurmFunction where
  func_id : Nat
  special_slurm_opts : PyDict
deriving DecidableEq

/-- Argument of `AutoBatch.add`: a `SlurmFunction`, or any other object, on
which the `isinstance` check fails. -/
inductive AddTarget where
  | slurmFn : SlurmFunction → AddTarget
  | other : String → AddTarget
deriving DecidableEq

/-- `AutoBatch` state: `max_batch_size`, the `_tasks` dict (insertion-ordered,
keyed by `HashableDict` configurations) and the `_on_completion` list. -/
structure BatchState where
  maxBatchSize : Option Nat
  tasks : List (PyDict × List FCall)
  onCompletion : List (SlurmFunction × List PyVal × PyDict)
deriving DecidableEq

/-- Observable effects of a terminal action: dispatcher calls, local
executions and console output. -/
inductive Effect where
  | dispatchBatch : List FCall → PyDict → Effect
  | dispatchSingle : FCall → PyDict → Effect
  | localRun : FCall → Effect
  | printed : String → Effect
deriving DecidableEq

/-- Whether an effect is a dispatcher submission (produces a JobId). -/
def isDispatchEffect : Effect → Bool
  | Effect.dispatchBatch _ _ => true
  | Effect.dispatchSingle _ _ => true
  | _ => false

/-- Whether an effect is a local in-process execution. -/
def isLocalRunEffect : Effect → Bool
  | Effect.localRun _ => true
  | _ => false

/-- `self._tasks[HashableDict(conf)].append(call)`: the defaultdict looks the
key up by `HashableDict` equality (dict content equality); a hit appends to
that group, a miss creates a new group at the end. -/
def insertTask (tasks : List (PyDict × List FCall)) (conf : PyDict) (call : FCall) :
    List (PyDict × List FCall) :=
  match tasks with
  | [] => [(conf, [call])]
  | g :: rest =>
      if dictBeq g.1 conf then (g.1, g.2 ++ [call]) :: rest
      else g :: insertTask rest conf call

/-- `AutoBatch.add`: rejects a non-`SlurmFunction` target with `ValueError`,
builds the `_FunctionCall`, resolves the effective configuration via
`_get_conf` (the external collaborator `getConf`) and inserts the call into
`_tasks`; inserting hashes the `HashableDict` key, which raises `TypeError`
on an unhashable value. -/
def addCall (f : String × PyVal → Nat) (getConf : PyDict → PyDict) (st : BatchState)
    (func : AddTarget) (args : List PyVal) (kwargs : PyDict) :
    Except PyErr BatchState :=
  match func with
  | AddTarget.other _ =>
      Except.error (PyErr.valueError
        "Can only batch SlurmFunctions. Use the slurmify-decorator to convert your function.")
  | AddTarget.slurmFn sf =>
      let call : FCall := ⟨sf.func_id, args, kwargs⟩
      let conf := getConf sf.special_slurm_opts
      match hdHash f conf with
      | Except.error e => Except.error e
      | Except.ok _ => Except.ok { st with tasks := insertTask st.tasks conf call }

/-- `AutoBatch.on_completion`: appends the deferred entry. -/
def onCompletionAdd (st : BatchState) (sf : SlurmFunction) (args : List PyVal)
    (kwargs : PyDict) : BatchState :=
  { st with onCompletion := st.onCompletion ++ [(sf, args, kwargs)] }

/-- `AutoBatch.run_locally`: every group's calls run in-process in
group-then-arrival order, then `_tasks` is cleared; `_on_completion` is not
touched. -/
def runLocally (st : BatchState) : List Effect × BatchState :=
  (st.tasks.flatMap (fun g => g.2.map Effect.localRun), { st with tasks := [] })

/-- Python `":".join(str(j) for j in job_ids)`. -/
def joinColon (jobIds : List Nat) : String :=
  String.intercalate ":" (jobIds.map Nat.repr)

/-- Dependency string built by `_add_on_completion_tasks` for one entry: the
pre-existing `"dependency"` option of the entry's `SlurmFunction` (dependency
option values are strings), comma-joined with the new afterany clause when
present and non-empty (Python truthiness), else the afterany clause alone. -/
def depClause (opts : PyDict) (jobIds : List Nat) : String :=
  match dictLookup opts "dependency" with
  | some (PyVal.str s) =>
      if s = "" then "afterany:" ++ joinColon jobIds
      else s ++ "," ++ ("afterany:" ++ joinColon jobIds)
  | _ => "afterany:" ++ joinColon jobIds

/-- `AutoBatch._add_on_completion_tasks`: each deferred entry is dispatched as
a single-call job whose configuration override carries exactly the merged
dependency option. -/
def onCompletionEffects (entries : List (SlurmFunction × List PyVal × PyDict))
    (jobIds : List Nat) : List Effect :=
  entries.map (fun e =>
    Effect.dispatchSingle ⟨e.1.func_id, e.2.1, e.2.2⟩
      [("dependency", PyVal.str (depClause e.1.special_slurm_opts jobIds))])

/-- The chunking loop of `distribute`
(`while calls: submit(calls[:b]); calls = calls[b:]`), driven by explicit
fuel so that the non-terminating `max_batch_size = 0` case is observable as
fuel exhaustion at every fuel. -/
def chunkLoop {α : Type} : Nat → Nat → List α → Option (List (List α))
  | _, _, [] => some []
  | 0, _, _ :: _ => none
  | fuel + 1, b, x :: xs =>
      (chunkLoop fuel b ((x :: xs).drop b)).map ((x :: xs).take b :: ·)

/-- Chunks of one group under bound `b`; the fuel `calls.length` is enough
whenever `b ≥ 1`. -/
def chunkGroup {α : Type} (b : Nat) (calls : List α) : Option (List (List α)) :=
  chunkLoop calls.length b calls

/-- Per-group chunking across the whole `_tasks` mapping. -/
def chunkedTasks (b : Nat) :
    List (PyDict × List FCall) → Option (List (PyDict × List (List FCall)))
  | [] => some []
  | g :: rest =>
      match chunkGroup b g.2 with
      | none => none
      | some chs => (chunkedTasks b rest).map ((g.1, chs) :: ·)

/-- The batch submissions `distribute` performs, in submission order: one per
group when `max_batch_size` is `None`, one per chunk otherwise. -/
def batchSubs (st : BatchState) : Option (List (PyDict × List FCall)) :=
  match st.maxBatchSize with
  | none => some st.tasks
  | some b =>
      (chunkedTasks b st.tasks).map
        (fun ct => ct.flatMap (fun g => g.2.map (fun ch => (g.1, ch))))

/-- `AutoBatch.distribute`: submit every batch, collect the job ids returned
by the dispatcher (`jid n` being the id of the n-th submission), clear
`_tasks`, then dispatch the `_on_completion` entries against the collected
ids; `_on_completion` is not cleared. Returns `none` when the chunking loop
does not terminate (`max_batch_size = 0` on a non-empty group). -/
def distribute (jid : Nat → Nat) (st : BatchState) :
    Option (List Effect × List Nat × BatchState) :=
  (batchSubs st).map (fun subs =>
    let jobIds := (List.range subs.length).map jid
    (subs.map (fun g => Effect.dispatchBatch g.2 g.1) ++
        onCompletionEffects st.onCompletion jobIds,
      jobIds, { st with tasks := [] }))

/-- Python truthiness of a value returned from `__exit__`; the `with`
statement re-raises the body exception exactly when the returned value is
falsy. -/
def pyTruthy : PyVal → Bool
  | PyVal.noneV => false
  | PyVal.int n => decide (n ≠ 0)
  | PyVal.str s => decide (s ≠ "")
  | PyVal.pylist xs => decide (xs ≠ [])

/-- `AutoBatch.__exit__`: on a body exception only a message is printed and
the method returns `None`; otherwise the reachability probe
`shutil.which("sbatch")` selects `run_locally` or `distribute`, and the
method again returns `None` by falling off its end. -/
def exitBatch (jid : Nat → Nat) (excPresent : Bool) (sbatchAvailable : Bool)
    (st : BatchState) : Option (PyVal × List Effect × BatchState) :=
  if excPresent then
    some (PyVal.noneV, [Effect.printed "Aborted due to exception."], st)
  else if sbatchAvailable then
    (distribute jid st).map (fun r => (PyVal.noneV, r.1, r.2.2))
  else
    some (PyVal.noneV,
      Effect.printed "No Slurm environment available. Running batch locally."
        :: (runLocally st).1,
      (runLocally st).2)

/-- Whether the `with` statement swallows a body exception: Python suppresses
the exception exactly when `__exit__` returns a truthy value. -/
def exitSuppresses (jid : Nat → Nat) (sbatchAvailable : Bool) (st : BatchState) :
    Option Bool :=
  (exitBatch jid true sbatchAvailable st).map (fun r => pyTruthy r.1)

/-- Calls of the group whose key is dict-equal to `c` (empty when there is no
such group). -/
def groupCalls (tasks : List (PyDict × List FCall)) (c : PyDict) : List FCall :=
  match tasks with
  | [] => []
  | g :: rest => if dictBeq g.1 c then g.2 else groupCalls rest c

/-- The `_tasks` mapping obtained from a sequence of (configuration, call)
insertions. -/
def tasksOf (pairs : List (PyDict × FCall)) : List (PyDict × List FCall) :=
  pairs.foldl (fun t p => insertTask t p.1 p.2) []

/-- Sample configuration used in the concrete scenarios. -/
def confA : PyDict := [("cpus", PyVal.int 2)]

/-- Sample call used in the concrete scenarios. -/
def callN (n : Nat) : FCall := ⟨n, [], []⟩

/-- Five invocations under one configuration with `max_batch_size = 2`. -/
def ex5 : BatchState :=
  { maxBatchSize := some 2,
    tasks := [(confA, [callN 1, callN 2, callN 3, callN 4, callN 5])],
    onCompletion := [] }

/-- Sample configuration, and `cdB` below with the same pairs in the other
insertion order. -/
def cdA : PyDict := [("a", PyVal.int 1), ("b", PyVal.str "x")]

/-- The pairs of `cdA` in the other insertion order. -/
def cdB : PyDict := [("b", PyVal.str "x"), ("a", PyVal.int 1)]

/-- One group and no chunk bound: the whole group goes out as a single job. -/
def exU : BatchState :=
  { maxBatchSize := none, tasks := [(confA, [callN 1])], onCompletion := [] }

theorem mem_of_dictLookup {d : PyDict} {k : String} {v : PyVal}
    (h : dictLookup d k = some v) : (k, v) ∈ d := by
  induction d with
  | nil => simp [dictLookup] at h
  | cons p rest ih =>
      obtain ⟨a, b⟩ := p
      rw [dictLookup] at h
      by_cases hk : a = k
      · rw [if_pos hk] at h
        injection h with hv
        subst hk
        subst hv
        exact List.mem_cons_self _ _
      · rw [if_neg hk] at h
        exact List.mem_cons_of_mem _ (ih h)

theorem dictLookup_of_mem {d : PyDict} {k : String} {v : PyVal}
    (hd : nodupKeys d) (h : (k, v) ∈ d) : dictLookup d k = some v := by
  induction d with
  | nil => simp at h
  | cons p rest ih =>
      obtain ⟨a, b⟩ := p
      rw [nodupKeys, List.map_cons, List.nodup_cons] at hd
      rcases List.mem_cons.mp h with h1 | h1
      · injection h1 with hk hv
        subst hk
        subst hv
        rw [dictLookup, if_pos rfl]
      · have hak : ¬(a = k) := by
          intro he
          apply hd.1
          rw [he]
          exact List.mem_map.mpr ⟨(k, v), h1, rfl⟩
        rw [dictLookup, if_neg hak]
        exact ih hd.2 h1

theorem dictBeq_iff_lookup {d1 d2 : PyDict} (h1 : nodupKeys d1) (h2 : nodupKeys d2) :
    dictBeq d1 d2 = true ↔ ∀ k, dictLookup d1 k = dictLookup d2 k := by
  constructor
  · intro h k
    rw [dictBeq, Bool.and_eq_true, List.all_eq_true, List.all_eq_true] at h
    obtain ⟨ha, hb⟩ := h
    cases hv : dictLookup d1 k with
    | some v =>
        have hx : dictLookup d2 k = some v :=
          of_decide_eq_true (ha _ (mem_of_dictLookup hv))
        exact hx.symm
    | none =>
        cases hw : dictLookup d2 k with
        | none => rfl
        | some w =>
            have hx : dictLookup d1 k = some w :=
              of_decide_eq_true (hb _ (mem_of_dictLookup hw))
            rw [hv] at hx
            exact Option.noConfusion hx
  · intro h
    rw [dictBeq, Bool.and_eq_true, List.all_eq_true, List.all_eq_true]
    constructor
    · intro p hp
      apply decide_eq_true
      obtain ⟨a, b⟩ := p
      rw [← h a]
      exact dictLookup_of_mem h1 hp
    · intro p hp
      apply decide_eq_true
      obtain ⟨a, b⟩ := p
      rw [h a]
      exact dictLookup_of_mem h2 hp

theorem dictBeq_comm (d1 d2 : PyDict) : dictBeq d1 d2 = dictBeq d2 d1 := by
  rw [dictBeq, dictBeq]
  exact Bool.and_comm _ _

theorem dictBeq_trans {d1 d2 d3 : PyDict}
    (h1 : nodupKeys d1) (h2 : nodupKeys d2) (h3 : nodupKeys d3)
    (ha : dictBeq d1 d2 = true) (hb : dictBeq d2 d3 = true) :
    dictBeq d1 d3 = true := by
  rw [dictBeq_iff_lookup h1 h2] at ha
  rw [dictBeq_iff_lookup h2 h3] at hb
  rw [dictBeq_iff_lookup h1 h3]
  intro k
  rw [ha k, hb k]

theorem dictBeq_iff_perm {d1 d2 : PyDict} (h1 : nodupKeys d1) (h2 : nodupKeys d2) :
    dictBeq d1 d2 = true ↔ d1.Perm d2 := by
  rw [dictBeq_iff_lookup h1 h2]
  constructor
  · intro h
    rw [List.perm_ext_iff_of_nodup (List.Nodup.of_map Prod.fst h1)
      (List.Nodup.of_map Prod.fst h2)]
    intro p
    obtain ⟨a, b⟩ := p
    constructor
    · intro hm
      apply mem_of_dictLookup (d := d2)
      rw [← h a]
      exact dictLookup_of_mem h1 hm
    · intro hm
      apply mem_of_dictLookup (d := d1)
      rw [h a]
      exact dictLookup_of_mem h2 hm
  · intro hperm k
    cases hv : dictLookup d1 k with
    | some v =>
        exact (dictLookup_of_mem h2 (hperm.subset (mem_of_dictLookup hv))).symm
    | none =>
        cases hw : dictLookup d2 k with
        | none => rfl
        | some w =>
            have hx : dictLookup d1 k = some w :=
              dictLookup_of_mem h1 (hperm.symm.subset (mem_of_dictLookup hw))
            rw [hv] at hx
            exact Option.noConfusion hx

theorem pairHashes_ok {f : String × PyVal → Nat} {d : PyDict}
    (h : ∀ p ∈ d, pyHashable p.2 = true) :
    pairHashes f d = Except.ok (d.map f) := by
  induction d with
  | nil => rfl
  | cons p rest ih =>
      have hp : pyHashable p.2 = true := h p (List.mem_cons_self _ _)
      rw [pairHashes, pairHashE, if_pos hp,
        ih (fun q hq => h q (List.mem_cons_of_mem _ hq)), List.map_cons]

theorem pairHashes_err {f : String × PyVal → Nat} {d : PyDict}
    (h : ∃ p ∈ d, pyHashable p.2 = false) :
    pairHashes f d = Except.error (PyErr.typeError "unhashable type") := by
  induction d with
  | nil => simp at h
  | cons p rest ih =>
      obtain ⟨q, hq, hqu⟩ := h
      rcases List.mem_cons.mp hq with h1 | h1
      · subst h1
        rw [pairHashes, pairHashE, if_neg (by rw [hqu]; exact Bool.false_ne_true)]
      · cases hp : pyHashable p.2 with
        | false => rw [pairHashes, pairHashE, if_neg (by rw [hp]; exact Bool.false_ne_true)]
        | true => rw [pairHashes, pairHashE, if_pos hp, ih ⟨q, h1, hqu⟩]

theorem insertionSort_eq_of_perm {l1 l2 : List Nat} (h : l1.Perm l2) :
    List.insertionSort (fun a b => a ≤ b) l1 =
      List.insertionSort (fun a b => a ≤ b) l2 := by
  haveI : IsAntisymm Nat (fun a b => a ≤ b) := ⟨fun _ _ h h2 => Nat.le_antisymm h h2⟩
  haveI : IsTotal Nat (fun a b => a ≤ b) := ⟨fun a b => Nat.le_total a b⟩
  haveI : IsTrans Nat (fun a b => a ≤ b) := ⟨fun _ _ _ h h2 => Nat.le_trans h h2⟩
  exact List.eq_of_perm_of_sorted
    ((List.perm_insertionSort _ l1).trans (h.trans (List.perm_insertionSort _ l2).symm))
    (List.sorted_insertionSort _ l1)
    (List.sorted_insertionSort _ l2)

theorem hdHash_congr_of_perm {f : String × PyVal → Nat} {d1 d2 : PyDict}
    (h : d1.Perm d2) : hdHash f d1 = hdHash f d2 := by
  by_cases hall : ∀ p ∈ d1, pyHashable p.2 = true
  · have hall2 : ∀ p ∈ d2, pyHashable p.2 = true :=
      fun p hp => hall p (h.symm.subset hp)
    rw [hdHash, hdHash, pairHashes_ok hall, pairHashes_ok hall2]
    show Except.ok (List.insertionSort (fun a b => a ≤ b) (List.map f d1)) =
      Except.ok (List.insertionSort (fun a b => a ≤ b) (List.map f d2))
    rw [insertionSort_eq_of_perm (h.map f)]
  · have hex : ∃ p ∈ d1, pyHashable p.2 = false := by
      push_neg at hall
      obtain ⟨p, hp, hne⟩ := hall
      exact ⟨p, hp, Bool.eq_false_iff.mpr hne⟩
    have hex2 : ∃ p ∈ d2, pyHashable p.2 = false := by
      obtain ⟨p, hp, hpf⟩ := hex
      exact ⟨p, h.subset hp, hpf⟩
    rw [hdHash, hdHash, pairHashes_err hex, pairHashes_err hex2]

theorem insertTask_keys {t : List (PyDict × List FCall)} {conf : PyDict}
    {call : FCall} (P : PyDict → Prop)
    (ht : ∀ g ∈ t, P g.1) (hconf : P conf) :
    ∀ g ∈ insertTask t conf call, P g.1 := by
  induction t with
  | nil =>
      intro g hg
      rw [insertTask, List.mem_singleton] at hg
      rw [hg]
      exact hconf
  | cons p rest ih =>
      intro g hg
      rw [insertTask] at hg
      by_cases hb : dictBeq p.1 conf = true
      · rw [if_pos hb] at hg
        rcases List.mem_cons.mp hg with h1 | h1
        · rw [h1]
          exact ht p (List.mem_cons_self _ _)
        · exact ht g (List.mem_cons_of_mem _ h1)
      · rw [if_neg hb] at hg
        rcases List.mem_cons.mp hg with h1 | h1
        · rw [h1]
          exact ht p (List.mem_cons_self _ _)
        · exact ih (fun q hq => ht q (List.mem_cons_of_mem _ hq)) g h1

theorem groupCalls_insertTask {t : List (PyDict × List FCall)} {conf c : PyDict}
    {call : FCall} (ht : ∀ g ∈ t, nodupKeys g.1) (hconf : nodupKeys conf)
    (hc : nodupKeys c) :
    groupCalls (insertTask t conf call) c =
      if dictBeq conf c then groupCalls t c ++ [call] else groupCalls t c := by
  induction t with
  | nil =>
      by_cases hb : dictBeq conf c = true
      · simp [insertTask, groupCalls, hb]
      · simp [insertTask, groupCalls, hb]
  | cons p rest ih =>
      have hp1 : nodupKeys p.1 := ht p (List.mem_cons_self _ _)
      have htr : ∀ g ∈ rest, nodupKeys g.1 := fun g hg => ht g (List.mem_cons_of_mem _ hg)
      by_cases hb : dictBeq p.1 conf = true
      · by_cases hcc : dictBeq conf c = true
        · have hpc : dictBeq p.1 c = true := dictBeq_trans hp1 hconf hc hb hcc
          simp [insertTask, hb, groupCalls, hpc, hcc]
        · have hpc : ¬(dictBeq p.1 c = true) := by
            intro hx
            exact hcc (dictBeq_trans hconf hp1 hc (by rw [dictBeq_comm]; exact hb) hx)
          simp [insertTask, hb, groupCalls, hpc, hcc]
      · by_cases hpc : dictBeq p.1 c = true
        · have hcc : ¬(dictBeq conf c = true) := by
            intro hx
            exact hb (dictBeq_trans hp1 hc hconf hpc (by rw [dictBeq_comm]; exact hx))
          simp [insertTask, hb, groupCalls, hpc, hcc]
        · simp [insertTask, hb, groupCalls, hpc, ih htr]

theorem groupCalls_foldl {c : PyDict} (hc : nodupKeys c) :
    ∀ pairs : List (PyDict × FCall), (∀ p ∈ pairs, nodupKeys p.1) →
    ∀ t : List (PyDict × List FCall), (∀ g ∈ t, nodupKeys g.1) →
      groupCalls (pairs.foldl (fun acc p => insertTask acc p.1 p.2) t) c =
        groupCalls t c ++ (pairs.filter (fun p => dictBeq p.1 c)).map Prod.snd := by
  intro pairs
  induction pairs with
  | nil =>
      intro _ t _
      simp
  | cons p rest ih =>
      intro hp t ht
      have hp1 : nodupKeys p.1 := hp p (List.mem_cons_self _ _)
      have hrest : ∀ q ∈ rest, nodupKeys q.1 :=
        fun q hq => hp q (List.mem_cons_of_mem _ hq)
      rw [List.foldl_cons,
        ih hrest _ (insertTask_keys nodupKeys ht hp1),
        groupCalls_insertTask ht hp1 hc]
      by_cases hb : dictBeq p.1 c = true
      · rw [if_pos hb]
        simp [List.filter_cons, hb, List.append_assoc]
      · rw [if_neg hb]
        simp [List.filter_cons, hb]

theorem groupCalls_tasksOf {pairs : List (PyDict × FCall)}
    (hp : ∀ p ∈ pairs, nodupKeys p.1) {c : PyDict} (hc : nodupKeys c) :
    groupCalls (tasksOf pairs) c =
      (pairs.filter (fun p => dictBeq p.1 c)).map Prod.snd := by
  rw [tasksOf, groupCalls_foldl hc pairs hp [] (by intro g hg; simp at hg)]
  simp [groupCalls]

theorem chunkLoop_zero_bound {α : Type} :
    ∀ (fuel : Nat) (l : List α), l ≠ [] → chunkLoop fuel 0 l = none := by
  intro fuel
  induction fuel with
  | zero =>
      intro l hl
      cases l with
      | nil => exact absurd rfl hl
      | cons x xs => rfl
  | succ f ih =>
      intro l hl
      cases l with
      | nil => exact absurd rfl hl
      | cons x xs =>
          simp only [chunkLoop, List.drop_zero]
          rw [ih (x :: xs) (List.cons_ne_nil _ _)]
          rfl

theorem chunkLoop_spec {α : Type} {b : Nat} (hb : 1 ≤ b) :
    ∀ (fuel : Nat) (l : List α), l.length ≤ fuel →
      ∃ chs, chunkLoop fuel b l = some chs ∧
        chs.flatten = l ∧
        (∀ c ∈ chs, c ≠ [] ∧ c.length ≤ b) ∧
        (∀ c ∈ chs.dropLast, c.length = b) := by
  intro fuel
  induction fuel with
  | zero =>
      intro l hl
      have hnil : l = [] := List.eq_nil_of_length_eq_zero (Nat.le_zero.mp hl)
      subst hnil
      exact ⟨[], rfl, rfl, by simp, by simp⟩
  | succ f ih =>
      intro l hl
      cases l with
      | nil => exact ⟨[], rfl, rfl, by simp, by simp⟩
      | cons x xs =>
          have hdl : ((x :: xs).drop b).length ≤ f := by
            rw [List.length_drop, List.length_cons]
            rw [List.length_cons] at hl
            omega
          obtain ⟨chs, h1, h2, h3, h4⟩ := ih ((x :: xs).drop b) hdl
          refine ⟨(x :: xs).take b :: chs, ?_, ?_, ?_, ?_⟩
          · simp [chunkLoop, h1]
          · rw [List.flatten_cons, h2, List.take_append_drop]
          · intro c hc
            rcases List.mem_cons.mp hc with h5 | h5
            · subst h5
              constructor
              · obtain ⟨b1, rfl⟩ : ∃ b1, b = b1 + 1 := ⟨b - 1, by omega⟩
                rw [List.take_succ_cons]
                exact List.cons_ne_nil _ _
              · rw [List.length_take]
                exact Nat.min_le_left _ _
            · exact h3 c h5
          · cases chs with
            | nil =>
                intro c hc
                simp at hc
            | cons c0 cs =>
                intro c hc
                rw [List.dropLast_cons₂] at hc
                rcases List.mem_cons.mp hc with h5 | h5
                · subst h5
                  have hc0 : c0 ≠ [] := (h3 c0 (List.mem_cons_self _ _)).1
                  have hne : (x :: xs).drop b ≠ [] := by
                    rw [← h2, List.flatten_cons]
                    intro heq
                    exact hc0 (List.append_eq_nil.mp heq).1
                  have hble : b < (x :: xs).length := by
                    by_contra hno
                    push_neg at hno
                    exact hne (List.drop_eq_nil_of_le hno)
                  rw [List.length_take]
                  exact Nat.min_eq_left (Nat.le_of_lt hble)
                · exact h4 c h5

theorem chunkGroup_spec {α : Type} {b : Nat} (hb : 1 ≤ b) (l : List α) :
    ∃ chs, chunkGroup b l = some chs ∧
      chs.flatten = l ∧
      (∀ c ∈ chs, c ≠ [] ∧ c.length ≤ b) ∧
      (∀ c ∈ chs.dropLast, c.length = b) :=
  chunkLoop_spec hb l.length l (Nat.le_refl _)

theorem chunkedTasks_spec {b : Nat} (hb : 1 ≤ b) (tasks : List (PyDict × List FCall)) :
    ∃ ct, chunkedTasks b tasks = some ct ∧
      ct.map (fun g => (g.1, g.2.flatten)) = tasks ∧
      ∀ g ∈ ct, (∀ c ∈ g.2, c ≠ [] ∧ c.length ≤ b) ∧
        (∀ c ∈ g.2.dropLast, c.length = b) := by
  induction tasks with
  | nil => exact ⟨[], rfl, rfl, by simp⟩
  | cons g rest ih =>
      obtain ⟨ct, h1, h2, h3⟩ := ih
      obtain ⟨chs, hg1, hg2, hg3, hg4⟩ := chunkGroup_spec hb g.2
      refine ⟨(g.1, chs) :: ct, ?_, ?_, ?_⟩
      · rw [chunkedTasks, hg1, h1]
        rfl
      · rw [List.map_cons, h2, hg2]
      · intro q hq
        rcases List.mem_cons.mp hq with h5 | h5
        · rw [h5]
          exact ⟨hg3, hg4⟩
        · exact h3 q h5

theorem chunkedTasks_zero_none {tasks : List (PyDict × List FCall)}
    {g : PyDict × List FCall} (hg : g ∈ tasks) (hne : g.2 ≠ []) :
    chunkedTasks 0 tasks = none := by
  induction tasks with
  | nil => simp at hg
  | cons p rest ih =>
      rcases List.mem_cons.mp hg with h1 | h1
      · subst h1
        rw [chunkedTasks, chunkGroup, chunkLoop_zero_bound _ _ hne]
      · rw [chunkedTasks]
        cases hc : chunkGroup 0 p.2 with
        | none => rfl
        | some chs => rw [ih h1]; rfl

theorem batchSubs_unbounded {st : BatchState} (h : st.maxBatchSize = none) :
    batchSubs st = some st.tasks := by
  rw [batchSubs, h]

theorem batchSubs_bounded {st : BatchState} {b : Nat} (h : st.maxBatchSize = some b)
    {ct : List (PyDict × List (List FCall))} (hct : chunkedTasks b st.tasks = some ct) :
    batchSubs st = some (ct.flatMap (fun g => g.2.map (fun ch => (g.1, ch)))) := by
  rw [batchSubs, h]
  show (chunkedTasks b st.tasks).map _ = _
  rw [hct]
  rfl

theorem distribute_eq {jid : Nat → Nat} {st : BatchState}
    {subs : List (PyDict × List FCall)} (hb : batchSubs st = some subs) :
    distribute jid st =
      some (subs.map (fun g => Effect.dispatchBatch g.2 g.1) ++
          onCompletionEffects st.onCompletion ((List.range subs.length).map jid),
        (List.range subs.length).map jid, { st with tasks := [] }) := by
  rw [distribute, hb]
  rfl

theorem distribute_none {jid : Nat → Nat} {st : BatchState}
    (hb : batchSubs st = none) : distribute jid st = none := by
  rw [distribute, hb]
  rfl

theorem distribute_no_localRun {jid : Nat → Nat} {st : BatchState}
    {r : List Effect × List Nat × BatchState} (h : distribute jid st = some r) :
    ∀ e ∈ r.1, isLocalRunEffect e = false := by
  cases hb : batchSubs st with
  | none =>
      rw [distribute_none hb] at h
      exact Option.noConfusion h
  | some subs =>
      rw [distribute_eq hb] at h
      injection h with h2
      rw [← h2]
      intro e he
      rcases List.mem_append.mp he with h3 | h3
      · obtain ⟨g, hg, he2⟩ := List.mem_map.mp h3
        rw [← he2]
        rfl
      · rw [onCompletionEffects] at h3
        obtain ⟨q, hq, he2⟩ := List.mem_map.mp h3
        rw [← he2]
        rfl

/-- C1: for every positive chunk bound b, `distribute` partitions each group
into consecutive chunks of length at most b with only the final chunk allowed
shorter, submits them in group order then chunk order, and concatenating each
group's chunks in chunk order restores that group exactly; with no bound every
group is submitted as one whole job; five invocations under one configuration
with `max_batch_size = 2` yield three jobs of chunk sizes [2, 2, 1] in order. -/
theorem distribute_chunk_partition (jid : Nat → Nat) (st : BatchState) :
    (∀ b : Nat, st.maxBatchSize = some b → 1 ≤ b →
      ∃ ct, chunkedTasks b st.tasks = some ct ∧
        ct.map (fun g => (g.1, g.2.flatten)) = st.tasks ∧
        (∀ g ∈ ct, (∀ c ∈ g.2, c ≠ [] ∧ c.length ≤ b) ∧
          (∀ c ∈ g.2.dropLast, c.length = b)) ∧
        ∃ subs, subs = ct.flatMap (fun g => g.2.map (fun ch => (g.1, ch))) ∧
          distribute jid st =
            some (subs.map (fun g => Effect.dispatchBatch g.2 g.1) ++
                onCompletionEffects st.onCompletion ((List.range subs.length).map jid),
              (List.range subs.length).map jid, { st with tasks := [] })) ∧
    (st.maxBatchSize = none →
      distribute jid st =
        some (st.tasks.map (fun g => Effect.dispatchBatch g.2 g.1) ++
            onCompletionEffects st.onCompletion ((List.range st.tasks.length).map jid),
          (List.range st.tasks.length).map jid, { st with tasks := [] })) ∧
    (distribute (fun n => n) ex5 =
      some ([Effect.dispatchBatch [callN 1, callN 2] confA,
             Effect.dispatchBatch [callN 3, callN 4] confA,
             Effect.dispatchBatch [callN 5] confA],
        [0, 1, 2], { ex5 with tasks := [] })) := by
  refine ⟨?_, ?_, by decide⟩
  · intro b hmb hb
    obtain ⟨ct, hct, hflat, hprops⟩ := chunkedTasks_spec hb st.tasks
    exact ⟨ct, hct, hflat, hprops, _, rfl, distribute_eq (batchSubs_bounded hmb hct)⟩
  · intro h
    exact distribute_eq (batchSubs_unbounded h)

theorem distribute_chunk_partition_witness :
    ∃ ct, chunkedTasks 2 ex5.tasks = some ct ∧
      ct.map (fun g => (g.1, g.2.flatten)) = ex5.tasks ∧
      (∀ g ∈ ct, (∀ c ∈ g.2, c ≠ [] ∧ c.length ≤ 2) ∧
        (∀ c ∈ g.2.dropLast, c.length = 2)) ∧
      ∃ subs, subs = ct.flatMap (fun g => g.2.map (fun ch => (g.1, ch))) ∧
        distribute (fun n => n) ex5 =
          some (subs.map (fun g => Effect.dispatchBatch g.2 g.1) ++
              onCompletionEffects ex5.onCompletion ((List.range subs.length).map (fun n => n)),
            (List.range subs.length).map (fun n => n), { ex5 with tasks := [] }) :=
  (distribute_chunk_partition (fun n => n) ex5).1 2 rfl (by decide)

/-- C2 counterexample: after a successful `distribute` the completion list is
not emptied (only `_tasks` is), and a second `distribute` on the same session
re-submits every completion entry — with dependency "afterany:" over the empty
id list — so it does perform submissions, contradicting the claim; only the
returned job id list is empty. -/
theorem drain_counterexample :
    distribute (fun n => n) ⟨none, [(confA, [callN 1])], [(⟨7, []⟩, [], [])]⟩ =
      some ([Effect.dispatchBatch [callN 1] confA,
             Effect.dispatchSingle ⟨7, [], []⟩ [("dependency", PyVal.str "afterany:0")]],
        [0], ⟨none, [], [(⟨7, []⟩, [], [])]⟩) ∧
    distribute (fun n => n) ⟨none, [], [(⟨7, []⟩, [], [])]⟩ =
      some ([Effect.dispatchSingle ⟨7, [], []⟩ [("dependency", PyVal.str "afterany:")]],
        [], ⟨none, [], [(⟨7, []⟩, [], [])]⟩) ∧
    ([(⟨7, []⟩, [], [])] : List (SlurmFunction × List PyVal × PyDict)) ≠ [] ∧
    [Effect.dispatchSingle ⟨7, [], []⟩ [("dependency", PyVal.str "afterany:")]] ≠ [] := by
  refine ⟨by decide, by decide, by decide, by decide⟩

/-- C2 amended: a terminal action drains only the group mapping — the
completion list survives. A second `distribute` submits no batch jobs and
returns an empty job id list, but re-dispatches every completion entry (now
against the empty id list); a second local run performs nothing. -/
theorem drain_clears_only_tasks (jid : Nat → Nat) (st : BatchState) :
    ((runLocally st).2 = { st with tasks := [] }) ∧
    (∀ r, distribute jid st = some r → r.2.2 = { st with tasks := [] }) ∧
    (∀ st2 : BatchState, st2.tasks = [] →
        distribute jid st2 = some (onCompletionEffects st2.onCompletion [], [], st2) ∧
        runLocally st2 = ([], st2)) := by
  refine ⟨rfl, ?_, ?_⟩
  · intro r h
    cases hb : batchSubs st with
    | none =>
        rw [distribute_none hb] at h
        exact Option.noConfusion h
    | some subs =>
        rw [distribute_eq hb] at h
        injection h with h2
        rw [← h2]
  · intro st2 h2
    obtain ⟨mb, tasks, oc⟩ := st2
    change tasks = [] at h2
    subst h2
    cases mb with
    | none => exact ⟨rfl, rfl⟩
    | some b => exact ⟨rfl, rfl⟩

theorem drain_clears_only_tasks_witness :
    distribute (fun n => n) (⟨none, [], [(⟨7, []⟩, [], [])]⟩ : BatchState) =
      some (onCompletionEffects [(⟨7, []⟩, [], [])] [], [],
        (⟨none, [], [(⟨7, []⟩, [], [])]⟩ : BatchState)) :=
  ((drain_clears_only_tasks (fun n => n) ⟨none, [], []⟩).2.2
    ⟨none, [], [(⟨7, []⟩, [], [])]⟩ rfl).1

/-- C3: on the local-fallback path no JobId is produced and no dependency
chaining occurs, but the completion-registered invocation never runs at all:
`run_locally` executes only the groups' calls and leaves the on_completion
entry behind untouched, so the deferred invocation is silently dropped — the
code contradicts the claim (and the spec's stated intent) here. -/
theorem run_locally_drops_completions :
    exitBatch (fun n => n) false false ⟨none, [(confA, [callN 1])], [(⟨7, []⟩, [], [])]⟩ =
      some (PyVal.noneV,
        [Effect.printed "No Slurm environment available. Running batch locally.",
         Effect.localRun (callN 1)],
        ⟨none, [], [(⟨7, []⟩, [], [])]⟩) ∧
    runLocally ⟨none, [(confA, [callN 1])], [(⟨7, []⟩, [], [])]⟩ =
      ([Effect.localRun (callN 1)], ⟨none, [], [(⟨7, []⟩, [], [])]⟩) ∧
    (∀ e ∈ [Effect.printed "No Slurm environment available. Running batch locally.",
        Effect.localRun (callN 1)], e ≠ Effect.localRun ⟨7, [], []⟩) := by
  refine ⟨rfl, rfl, by decide⟩

/-- C4 counterexample: with a body exception, `__exit__` prints the report and
returns the falsy `None`, so the `with` statement re-raises the exception —
it is not swallowed at the scope boundary as the claim states. -/
theorem exit_exception_not_swallowed :
    exitSuppresses (fun n => n) true (⟨none, [], []⟩ : BatchState) = some false ∧
    exitBatch (fun n => n) true true (⟨none, [], []⟩ : BatchState) =
      some (PyVal.noneV, [Effect.printed "Aborted due to exception."],
        (⟨none, [], []⟩ : BatchState)) :=
  ⟨rfl, rfl⟩

/-- C4 amended: when the scoped block's body raises, scope exit performs
neither terminal path — the state is untouched and the only effect is the
printed report — and the exception is then re-raised, because `__exit__`
returns the falsy `None`, which does not suppress it. -/
theorem exit_exception_aborts (jid : Nat → Nat) (avail : Bool) (st : BatchState) :
    exitBatch jid true avail st =
      some (PyVal.noneV, [Effect.printed "Aborted due to exception."], st) ∧
    exitSuppresses jid avail st = some false :=
  ⟨rfl, rfl⟩

/-- C5: two configurations are equal exactly when their key/value pair
collections coincide regardless of insertion order (a permutation of entries);
the hash — built from the sorted list of per-entry hashes — agrees with that
equality for every per-entry hash function; and over any sequence of added
(configuration, call) pairs, the group keyed by c holds exactly the calls
whose configurations are value-equal to c, so value-equal configurations
share one group and different configurations never share a group. -/
theorem config_equality_hash_grouping (f : String × PyVal → Nat) (d1 d2 : PyDict)
    (h1 : nodupKeys d1) (h2 : nodupKeys d2) :
    (dictBeq d1 d2 = true ↔ d1.Perm d2) ∧
    (dictBeq d1 d2 = true → hdHash f d1 = hdHash f d2) ∧
    (∀ pairs : List (PyDict × FCall), (∀ p ∈ pairs, nodupKeys p.1) →
      ∀ c : PyDict, nodupKeys c →
        groupCalls (tasksOf pairs) c =
          (pairs.filter (fun p => dictBeq p.1 c)).map Prod.snd) := by
  refine ⟨dictBeq_iff_perm h1 h2, ?_, ?_⟩
  · intro hb
    exact hdHash_congr_of_perm ((dictBeq_iff_perm h1 h2).mp hb)
  · intro pairs hp c hc
    exact groupCalls_tasksOf hp hc

theorem config_equality_hash_grouping_witness :
    hdHash (fun _ => 0) cdA = hdHash (fun _ => 0) cdB ∧
    groupCalls (tasksOf [(cdA, callN 1), (cdB, callN 2)]) cdA =
      ([(cdA, callN 1), (cdB, callN 2)].filter (fun p => dictBeq p.1 cdA)).map Prod.snd := by
  constructor
  · exact (config_equality_hash_grouping (fun _ => 0) cdA cdB
      (by decide) (by decide)).2.1 (by decide)
  · exact (config_equality_hash_grouping (fun _ => 0) cdA cdB
      (by decide) (by decide)).2.2 [(cdA, callN 1), (cdB, callN 2)]
      (by decide) cdA (by decide)

/-- C6 counterexample: `add` with a non-SlurmFunction target raises a
`ValueError`, which is not a TypeError-kind error, refuting the claimed error
kind (the rest of the claim — immediate failure, nothing recorded — holds). -/
theorem add_not_batchable_valueError :
    addCall (fun _ => 0) (fun d => d) (⟨none, [], []⟩ : BatchState)
      (AddTarget.other "f") [] [] =
      Except.error (PyErr.valueError
        "Can only batch SlurmFunctions. Use the slurmify-decorator to convert your function.") ∧
    isTypeError (PyErr.valueError
      "Can only batch SlurmFunctions. Use the slurmify-decorator to convert your function.") = false :=
  ⟨rfl, rfl⟩

/-- C6 amended: for every call to `add` whose target is not a registered
`SlurmFunction`, the call fails with a `ValueError` raised immediately at the
add call site (never deferred), and the invocation is recorded in no group —
no updated state is produced at all. -/
theorem add_not_batchable (f : String × PyVal → Nat) (getConf : PyDict → PyDict)
    (st : BatchState) (obj : String) (args : List PyVal) (kwargs : PyDict) :
    addCall f getConf st (AddTarget.other obj) args kwargs =
      Except.error (PyErr.valueError
        "Can only batch SlurmFunctions. Use the slurmify-decorator to convert your function.") :=
  rfl

/-- C7: the dependency expression submitted for a completion entry is the
entry's pre-existing dependency clause (when present and non-empty)
comma-joined with an afterany clause over the colon-joined job id list; with
no pre-existing clause it is the afterany clause alone; in particular
"afterok:5" with job ids [10, 11] produces "afterok:5,afterany:10:11", and
every entry is dispatched as a single job carrying its merged clause. -/
theorem completion_dependency_composition :
    (∀ (opts : PyDict) (jobIds : List Nat) (s : String),
        dictLookup opts "dependency" = some (PyVal.str s) → s ≠ "" →
        depClause opts jobIds = s ++ "," ++ ("afterany:" ++ joinColon jobIds)) ∧
    (∀ (opts : PyDict) (jobIds : List Nat),
        dictLookup opts "dependency" = none →
        depClause opts jobIds = "afterany:" ++ joinColon jobIds) ∧
    (∀ (entries : List (SlurmFunction × List PyVal × PyDict)) (jobIds : List Nat),
        onCompletionEffects entries jobIds = entries.map (fun e =>
          Effect.dispatchSingle ⟨e.1.func_id, e.2.1, e.2.2⟩
            [("dependency", PyVal.str (depClause e.1.special_slurm_opts jobIds))])) ∧
    depClause [("dependency", PyVal.str "afterok:5")] [10, 11] =
      "afterok:5,afterany:10:11" := by
  refine ⟨?_, ?_, fun _ _ => rfl, by decide⟩
  · intro opts jobIds s h hs
    rw [depClause, h]
    show (if s = "" then "afterany:" ++ joinColon jobIds
      else s ++ "," ++ ("afterany:" ++ joinColon jobIds)) = _
    rw [if_neg hs]
  · intro opts jobIds h
    rw [depClause, h]

theorem completion_dependency_composition_witness :
    depClause [("dependency", PyVal.str "afterok:5")] [10, 11] =
      "afterok:5" ++ "," ++ ("afterany:" ++ joinColon [10, 11]) :=
  completion_dependency_composition.1 [("dependency", PyVal.str "afterok:5")]
    [10, 11] "afterok:5" rfl (by decide)

/-- C8: at scope exit without a body exception exactly one terminal path runs,
selected by the sbatch reachability probe: when unreachable, no dispatch
effect occurs (so no JobId is produced) and every accumulated invocation is
run locally exactly once in group-then-arrival order; when reachable, the
distribute path runs and no local execution occurs. -/
theorem exit_terminal_path_selection (jid : Nat → Nat) (st : BatchState) :
    (exitBatch jid false false st =
        some (PyVal.noneV,
          Effect.printed "No Slurm environment available. Running batch locally."
            :: st.tasks.flatMap (fun g => g.2.map Effect.localRun),
          { st with tasks := [] })) ∧
    (∀ e ∈ (Effect.printed "No Slurm environment available. Running batch locally."
        :: st.tasks.flatMap (fun g => g.2.map Effect.localRun)),
      isDispatchEffect e = false) ∧
    (∀ r, distribute jid st = some r →
        exitBatch jid false true st = some (PyVal.noneV, r.1, r.2.2) ∧
        ∀ e ∈ r.1, isLocalRunEffect e = false) := by
  refine ⟨rfl, ?_, ?_⟩
  · intro e he
    rcases List.mem_cons.mp he with h1 | h1
    · rw [h1]
      rfl
    · obtain ⟨g, hg, he2⟩ := List.mem_flatMap.mp h1
      obtain ⟨c, hc, he3⟩ := List.mem_map.mp he2
      rw [← he3]
      rfl
  · intro r h
    constructor
    · have hx : exitBatch jid false true st =
          (distribute jid st).map (fun r2 => (PyVal.noneV, r2.1, r2.2.2)) := rfl
      rw [hx, h]
      rfl
    · exact distribute_no_localRun h

theorem exit_terminal_path_selection_witness :
    exitBatch (fun n => n) false true ex5 =
      some (PyVal.noneV,
        [Effect.dispatchBatch [callN 1, callN 2] confA,
         Effect.dispatchBatch [callN 3, callN 4] confA,
         Effect.dispatchBatch [callN 5] confA],
        { ex5 with tasks := [] }) :=
  ((exit_terminal_path_selection (fun n => n) ex5).2.2
    ([Effect.dispatchBatch [callN 1, callN 2] confA,
      Effect.dispatchBatch [callN 3, callN 4] confA,
      Effect.dispatchBatch [callN 5] confA],
     [0, 1, 2], { ex5 with tasks := [] }) (by decide)).1

/-- C9: a configuration containing an unhashable value makes `add` fail with
the `TypeError` that hashing the grouping key raises (the error the spec
names `InvalidConfigError`), exactly when the configuration is used as a
grouping key during `add`; no invocation is recorded under it, since the add
returns the error and produces no updated state. -/
theorem add_unhashable_config (f : String × PyVal → Nat) (getConf : PyDict → PyDict)
    (st : BatchState) (sf : SlurmFunction) (args : List PyVal) (kwargs : PyDict)
    (h : ∃ p ∈ getConf sf.special_slurm_opts, pyHashable p.2 = false) :
    addCall f getConf st (AddTarget.slurmFn sf) args kwargs =
      Except.error (PyErr.typeError "unhashable type") := by
  have hh : hdHash f (getConf sf.special_slurm_opts) =
      Except.error (PyErr.typeError "unhashable type") := by
    rw [hdHash, pairHashes_err h]
  simp only [addCall]
  rw [hh]

theorem add_unhashable_config_witness :
    addCall (fun _ => 0) (fun d => d) (⟨none, [], []⟩ : BatchState)
      (AddTarget.slurmFn ⟨3, [("x", PyVal.pylist [1])]⟩) [] [] =
      Except.error (PyErr.typeError "unhashable type") :=
  add_unhashable_config (fun _ => 0) (fun d => d) ⟨none, [], []⟩
    ⟨3, [("x", PyVal.pylist [1])]⟩ [] []
    ⟨("x", PyVal.pylist [1]), by decide, rfl⟩

/-- C10: `distribute` terminates whenever `max_batch_size` is absent or at
least 1 — each chunking step strictly shrinks the remaining list — while with
`max_batch_size = 0` on a non-empty group the loop removes no elements: it
fails at every fuel, and `distribute` has no result. -/
theorem distribute_termination (jid : Nat → Nat) :
    (∀ st : BatchState, st.maxBatchSize = none → ∃ r, distribute jid st = some r) ∧
    (∀ (st : BatchState) (b : Nat), st.maxBatchSize = some b → 1 ≤ b →
        ∃ r, distribute jid st = some r) ∧
    (∀ (b : Nat) (l : List FCall), 1 ≤ b → l ≠ [] → (l.drop b).length < l.length) ∧
    (∀ (fuel : Nat) (l : List FCall), l ≠ [] → chunkLoop fuel 0 l = none) ∧
    (∀ (st : BatchState) (g : PyDict × List FCall), st.maxBatchSize = some 0 →
        g ∈ st.tasks → g.2 ≠ [] → distribute jid st = none) := by
  refine ⟨?_, ?_, ?_, chunkLoop_zero_bound, ?_⟩
  · intro st h
    exact ⟨_, distribute_eq (batchSubs_unbounded h)⟩
  · intro st b hmb hb
    obtain ⟨ct, hct, _, _⟩ := chunkedTasks_spec hb st.tasks
    exact ⟨_, distribute_eq (batchSubs_bounded hmb hct)⟩
  · intro b l hb hl
    have hpos : 0 < l.length := List.length_pos.mpr hl
    rw [List.length_drop]
    omega
  · intro st g hmb hg hne
    apply distribute_none
    rw [batchSubs, hmb]
    show (chunkedTasks 0 st.tasks).map _ = none
    rw [chunkedTasks_zero_none hg hne]
    rfl

theorem distribute_termination_witness :
    ∃ r, distribute (fun n => n) ex5 = some r :=
  (distribute_termination (fun n => n)).2.1 ex5 2 rfl (by decide)
